import Mathlib

/-!
Shallow embedding of the yagami-decryption-agency transform core
(`src/main.rs` and `src/array_chunks_pad.rs`).

Bytes are modelled as `Nat` (a value `< 256` in the running program); a
64-bit word is a `Nat` taken modulo `2 ^ 64` where the machine arithmetic
wraps.  The 512-byte key table is modelled as a function `Nat → Nat`
(only indices `0..511` are ever read, because every access goes through
`% 512`, mirroring `key.iter().cycle()`).  The fallible slice-to-array
conversion `chunk.try_into().unwrap()` inside `rotate` is modelled with
`Option`: `none` is the panic.
-/

set_option autoImplicit false

namespace Yda

variable {α : Type _}

/-- `u64::from_le_bytes`: a list of bytes read as a little-endian word. -/
def fromLeBytes (l : List Nat) : Nat :=
  l.foldr (fun b acc => b + 256 * acc) 0

/-- `u64::to_le_bytes`: the 8 little-endian bytes of a 64-bit word. -/
def toLeBytes (v : Nat) : List Nat :=
  (List.range 8).map fun j => v / 256 ^ j % 256

/-- `u64::rotate_left`: rotate a 64-bit word left by `n` bits (the shift
amount is reduced modulo the word width, as the Rust intrinsic does). -/
def rotl64 (v n : Nat) : Nat :=
  let r := n % 64
  v % 2 ^ 64 % 2 ^ (64 - r) * 2 ^ r + v % 2 ^ 64 / 2 ^ (64 - r)

/-- The body of the loop in `rotate::<LEFT>` (main.rs lines 91-96): both
branches of the conditional compute `value.rotate_left((i % 64) as u32)`. -/
def rotateChunk (left : Bool) (i v : Nat) : Nat :=
  if left then rotl64 v (i % 64) else rotl64 v (i % 64)

/-- `data.chunks_mut(8)`: split into groups of 8 bytes, the last group
possibly shorter. -/
def chunks8 : List Nat → List (List Nat)
  | [] => []
  | b0 :: b1 :: b2 :: b3 :: b4 :: b5 :: b6 :: b7 :: rest =>
      [b0, b1, b2, b3, b4, b5, b6, b7] :: chunks8 rest
  | l => [l]

/-- `chunk.try_into()` followed by `u64::from_le_bytes`: succeeds exactly
when the chunk has 8 bytes. -/
def tryIntoWord (chunk : List Nat) : Option Nat :=
  if chunk.length = 8 then some (fromLeBytes chunk) else none

/-- The chunk loop of `rotate::<LEFT>` with the running `enumerate` index
`i`; `none` models the `unwrap` panic on a short chunk. -/
def rotateGo (left : Bool) (i : Nat) : List (List Nat) → Option (List Nat)
  | [] => some []
  | c :: cs =>
      match tryIntoWord c, rotateGo left (i + 1) cs with
      | some v, some rest => some (toLeBytes (rotateChunk left i v) ++ rest)
      | _, _ => none

/-- `fn rotate<const LEFT: bool>(data)` (main.rs lines 81-103). -/
def rotate (left : Bool) (data : List Nat) : Option (List Nat) :=
  rotateGo left 0 (chunks8 data)

/-- `fn rotate_left(data)` = `rotate::<true>(data)` (main.rs line 105). -/
def rotate_left (data : List Nat) : Option (List Nat) :=
  rotate true data

/-- `fn rotate_right(data)` = `rotate::<false>(data)` (main.rs line 109). -/
def rotate_right (data : List Nat) : Option (List Nat) :=
  rotate false data

/-- The cycled key byte used at stream position `p`: `key.iter().cycle()`
hands out `key[p % 512]`. -/
def keyByteAt (key : Nat → Nat) (p : Nat) : Nat :=
  key (p % 512)

/-- `fn xor(data, key)` (main.rs lines 62-79): byte at position `p` is
XORed with the cycled key byte at `p`. -/
def xorKey (data : List Nat) (key : Nat → Nat) : List Nat :=
  data.enum.map fun pb => pb.2 ^^^ keyByteAt key pb.1

/-- `fn pad(data)` (main.rs lines 113-118): `resize` the data with zero
bytes up to the next multiple of 8, if it is not already one. -/
def pad (data : List Nat) : List Nat :=
  if data.length % 8 ≠ 0 then data ++ List.replicate (8 - data.length % 8) 0
  else data

/-- `fn decrypt(data, key)` (main.rs lines 120-128): xor, pad, rotate_left. -/
def decrypt (data : List Nat) (key : Nat → Nat) : Option (List Nat) :=
  rotate_left (pad (xorKey data key))

/-- `fn encrypt(data, key)` (main.rs lines 130-138): pad, rotate_right, xor. -/
def encrypt (data : List Nat) (key : Nat → Nat) : Option (List Nat) :=
  (rotate_right (pad data)).map fun d => xorKey d key

/-- Word `w` of the key table read little-endian (the table's bytes
`8*w .. 8*w+7`). -/
def tableWord (key : Nat → Nat) (w : Nat) : Nat :=
  fromLeBytes ((List.range 8).map fun j => key (8 * w + j))

/-- The 64-bit keystream word consumed while processing chunk `i`: the 8
cycled key bytes at stream positions `8*i .. 8*i+7`, read little-endian. -/
def chunkKeystreamWord (key : Nat → Nat) (i : Nat) : Nat :=
  fromLeBytes ((List.range 8).map fun j => keyByteAt key (8 * i + j))

/-- The rotation amount the code derives from the chunk index
(`(i % 64) as u32`, main.rs lines 93 and 95). -/
def rotationAmount (i : Nat) : Nat :=
  i % 64

/-- `ArrayChunksPad::next` (array_chunks_pad.rs lines 55-84) run to
exhaustion, as a function on lists: groups of exactly `N`, the final short
group right-filled with `filler`; an empty source emits nothing. -/
def arrayChunksPad (N : Nat) (filler : α) : List α → List (List α)
  | [] => []
  | a :: t =>
      if _hN : N = 0 then []
      else ((a :: t).take N ++ List.replicate (N - (a :: t).length) filler)
          :: arrayChunksPad N filler ((a :: t).drop N)
termination_by l => l.length
decreasing_by
  simp only [List.length_drop, List.length_cons]
  omega

end Yda

namespace Yda

/-- C2: the `const LEFT` parameter of `rotate` has no effect: both
branches compute `value.rotate_left((i % 64) as u32)`, so `rotate_left`
and `rotate_right` agree on every byte vector. -/
theorem rotate_left_eq_rotate_right (data : List Nat) :
    rotate_left data = rotate_right data := by
  have hchunk : ∀ i v, rotateChunk true i v = rotateChunk false i v := by
    intro i v
    simp [rotateChunk]
  have hgo : ∀ cs i, rotateGo true i cs = rotateGo false i cs := by
    intro cs
    induction cs with
    | nil => intro i; rfl
    | cons c cs ih =>
        intro i
        simp only [rotateGo, hchunk, ih]
  simp only [rotate_left, rotate_right, rotate, hgo]

/-- C7: the rotation applied to the word of chunk `i` is a left rotation
by `i mod 64`; the amount is periodic with period 64, and `rotl64` itself
reduces any amount modulo 64. -/
theorem rotation_amount_periodic (left : Bool) (i v : Nat) :
    rotateChunk left i v = rotl64 v (rotationAmount i) ∧
    rotationAmount i = i % 64 ∧
    rotateChunk left (i + 64) v = rotateChunk left i v ∧
    rotl64 v (rotationAmount i + 64) = rotl64 v (rotationAmount i) := by
  refine ⟨by cases left <;> rfl, rfl, ?_, ?_⟩
  · have h : (i + 64) % 64 = i % 64 := Nat.add_mod_right i 64
    cases left <;> simp [rotateChunk, h]
  · have h : (rotationAmount i + 64) % 64 = rotationAmount i % 64 :=
      Nat.add_mod_right _ 64
    simp only [rotl64, h]

theorem toLeBytes_length (v : Nat) : (toLeBytes v).length = 8 := by
  simp [toLeBytes]

theorem chunks8_of_dvd (l : List Nat) :
    8 ∣ l.length →
      (∀ c ∈ chunks8 l, c.length = 8) ∧ 8 * (chunks8 l).length = l.length := by
  induction l using chunks8.induct with
  | case1 => intro _; simp [chunks8]
  | case2 b0 b1 b2 b3 b4 b5 b6 b7 rest ih =>
      intro h
      have hr : 8 ∣ rest.length := by
        simp only [List.length_cons] at h
        omega
      obtain ⟨h1, h2⟩ := ih hr
      constructor
      · intro c hc
        simp only [chunks8, List.mem_cons] at hc
        rcases hc with rfl | hc
        · rfl
        · exact h1 c hc
      · simp only [chunks8, List.length_cons]
        omega
  | case3 l hnil hcons =>
      intro h
      exfalso
      rcases l with _ | ⟨b0, _ | ⟨b1, _ | ⟨b2, _ | ⟨b3, _ | ⟨b4, _ | ⟨b5, _ | ⟨b6, _ | ⟨b7, rest⟩⟩⟩⟩⟩⟩⟩⟩
      · exact hnil rfl
      all_goals first
        | exact hcons _ _ _ _ _ _ _ _ _ rfl
        | (simp only [List.length_cons, List.length_nil] at h; omega)

theorem rotateGo_some (left : Bool) (cs : List (List Nat)) :
    ∀ i, (∀ c ∈ cs, c.length = 8) →
      ∃ r, rotateGo left i cs = some r ∧ r.length = 8 * cs.length := by
  induction cs with
  | nil => exact fun i _ => ⟨[], rfl, rfl⟩
  | cons c cs ih =>
      intro i hc
      have hcl : c.length = 8 := hc c (List.mem_cons_self c cs)
      obtain ⟨r, hr, hlen⟩ := ih (i + 1) fun d hd => hc d (List.mem_cons_of_mem c hd)
      refine ⟨toLeBytes (rotateChunk left i (fromLeBytes c)) ++ r, ?_, ?_⟩
      · simp only [rotateGo, tryIntoWord, hcl, if_pos, hr]
      · simp only [List.length_append, toLeBytes_length, List.length_cons]
        omega

theorem rotate_some_of_dvd (left : Bool) (l : List Nat) (h : 8 ∣ l.length) :
    ∃ r, rotate left l = some r ∧ r.length = l.length := by
  obtain ⟨h1, h2⟩ := chunks8_of_dvd l h
  obtain ⟨r, hr, hlen⟩ := rotateGo_some left (chunks8 l) 0 h1
  exact ⟨r, hr, by omega⟩

theorem pad_length (l : List Nat) : (pad l).length = (l.length + 7) / 8 * 8 := by
  simp only [pad]
  split
  · simp only [List.length_append, List.length_replicate]
    omega
  · omega

theorem xorKey_length (data : List Nat) (key : Nat → Nat) :
    (xorKey data key).length = data.length := by
  simp [xorKey]

/-- C3: `decrypt` and `encrypt` always succeed and their output has
exactly `ceil(len(input)/8)*8` bytes: the final partial word is padded to
an 8-byte boundary and the core never truncates. -/
theorem output_length (data : List Nat) (key : Nat → Nat) :
    ∃ r s, decrypt data key = some r ∧ r.length = (data.length + 7) / 8 * 8 ∧
      encrypt data key = some s ∧ s.length = (data.length + 7) / 8 * 8 := by
  have hd : 8 ∣ (pad (xorKey data key)).length := by
    rw [pad_length]; omega
  obtain ⟨r, hr, hrl⟩ := rotate_some_of_dvd true (pad (xorKey data key)) hd
  have he : 8 ∣ (pad data).length := by
    rw [pad_length]; omega
  obtain ⟨s, hs, hsl⟩ := rotate_some_of_dvd false (pad data) he
  refine ⟨r, xorKey s key, hr, ?_, ?_, ?_⟩
  · rw [hrl, pad_length, xorKey_length]
  · simp only [encrypt, rotate_right, hs]; rfl
  · rw [xorKey_length, hsl, pad_length]

/-- C10: `decrypt` and `encrypt` are total: the slice-to-array conversion
inside `rotate` always succeeds because `pad` runs before `rotate` in both
pipelines, so every chunk produced by `chunks_mut(8)` has exactly 8
bytes. -/
theorem decrypt_encrypt_total (data : List Nat) (key : Nat → Nat) :
    (decrypt data key).isSome ∧ (encrypt data key).isSome := by
  have hd : 8 ∣ (pad (xorKey data key)).length := by rw [pad_length]; omega
  obtain ⟨r, hr, -⟩ := rotate_some_of_dvd true (pad (xorKey data key)) hd
  have he : 8 ∣ (pad data).length := by rw [pad_length]; omega
  obtain ⟨s, hs, -⟩ := rotate_some_of_dvd false (pad data) he
  constructor
  · simp only [decrypt, rotate_left, hr]; rfl
  · simp only [encrypt, rotate_right, hs]; rfl

theorem rotl64_zero (v : Nat) : rotl64 v 0 = v % 2 ^ 64 := by
  simp only [rotl64]
  norm_num

theorem fromLeBytes_toLeBytes (v : Nat) : fromLeBytes (toLeBytes v) = v % 2 ^ 64 := by
  simp only [toLeBytes, fromLeBytes, List.range_succ, List.map_append, List.map_cons,
    List.map_nil, List.foldr_append, List.foldr_cons, List.foldr_nil]
  norm_num
  omega

theorem toLeBytes_fromLeBytes (b0 b1 b2 b3 b4 b5 b6 b7 : Nat)
    (h0 : b0 < 256) (h1 : b1 < 256) (h2 : b2 < 256) (h3 : b3 < 256)
    (h4 : b4 < 256) (h5 : b5 < 256) (h6 : b6 < 256) (h7 : b7 < 256) :
    toLeBytes (fromLeBytes [b0, b1, b2, b3, b4, b5, b6, b7]) =
      [b0, b1, b2, b3, b4, b5, b6, b7] := by
  simp only [toLeBytes, fromLeBytes, List.foldr_cons, List.foldr_nil, List.range_succ,
    List.map_append, List.map_cons, List.map_nil]
  norm_num
  refine ⟨?_, ?_, ?_, ?_, ?_, ?_, ?_, ?_⟩ <;> omega

theorem fromLeBytes_lt (b0 b1 b2 b3 b4 b5 b6 b7 : Nat)
    (h0 : b0 < 256) (h1 : b1 < 256) (h2 : b2 < 256) (h3 : b3 < 256)
    (h4 : b4 < 256) (h5 : b5 < 256) (h6 : b6 < 256) (h7 : b7 < 256) :
    fromLeBytes [b0, b1, b2, b3, b4, b5, b6, b7] < 2 ^ 64 := by
  simp only [fromLeBytes, List.foldr_cons, List.foldr_nil]
  norm_num
  omega

theorem tableWord_zero (key : Nat → Nat) :
    tableWord key 0 =
      fromLeBytes [key 0, key 1, key 2, key 3, key 4, key 5, key 6, key 7] :=
  rfl

theorem chunkKeystreamWord_eq (key : Nat → Nat) (i : Nat) :
    chunkKeystreamWord key i = tableWord key (i % 64) := by
  simp only [chunkKeystreamWord, tableWord, keyByteAt]
  congr 1
  apply List.map_congr_left
  intro j hj
  have hj8 : j < 8 := List.mem_range.mp hj
  congr 1
  omega

/-- C6: during 64 consecutive chunks the key bytes cycled out by `xor`
form, chunk by chunk, exactly the key table's 64 little-endian words in
table order: the keystream word consumed for chunk `i` is table word
`i mod 64`, so the word for chunk `i + 64` (in particular chunk 64)
repeats the word for chunk `i`. -/
theorem keystream_words (key : Nat → Nat) (i : Nat) :
    chunkKeystreamWord key i = tableWord key (i % 64) ∧
    (i < 64 → chunkKeystreamWord key i = tableWord key i) ∧
    chunkKeystreamWord key (i + 64) = chunkKeystreamWord key i := by
  refine ⟨chunkKeystreamWord_eq key i, ?_, ?_⟩
  · intro h
    rw [chunkKeystreamWord_eq, Nat.mod_eq_of_lt h]
  · rw [chunkKeystreamWord_eq, chunkKeystreamWord_eq, Nat.add_mod_right]

theorem keystream_words_witness :
    chunkKeystreamWord (fun p => p % 256) 5 = tableWord (fun p => p % 256) (5 % 64) ∧
    chunkKeystreamWord (fun p => p % 256) 5 = tableWord (fun p => p % 256) 5 ∧
    chunkKeystreamWord (fun p => p % 256) (5 + 64) = chunkKeystreamWord (fun p => p % 256) 5 :=
  ⟨(keystream_words (fun p => p % 256) 5).1,
    (keystream_words (fun p => p % 256) 5).2.1 (by norm_num),
    (keystream_words (fun p => p % 256) 5).2.2⟩

/-- C9: for the 8-byte all-zero input at chunk index 0 with keystream
word 0 equal to `K0` (= table word 0), `decrypt` yields the little-endian
bytes of `K0`, and `encrypt` on those bytes yields back the all-zero
chunk. -/
theorem zero_chunk_scenario (key : Nat → Nat) (hk : ∀ p, key p < 256) :
    decrypt (List.replicate 8 0) key = some (toLeBytes (tableWord key 0)) ∧
    encrypt (toLeBytes (tableWord key 0)) key = some (List.replicate 8 0) := by
  have hW : fromLeBytes [key 0, key 1, key 2, key 3, key 4, key 5, key 6, key 7] < 2 ^ 64 :=
    fromLeBytes_lt _ _ _ _ _ _ _ _ (hk 0) (hk 1) (hk 2) (hk 3) (hk 4) (hk 5) (hk 6) (hk 7)
  have hx : xorKey (List.replicate 8 0) key =
      [key 0, key 1, key 2, key 3, key 4, key 5, key 6, key 7] := by
    simp [xorKey, keyByteAt, List.enum, List.enumFrom, List.replicate]
  have hback : toLeBytes (fromLeBytes [key 0, key 1, key 2, key 3, key 4, key 5, key 6, key 7]) =
      [key 0, key 1, key 2, key 3, key 4, key 5, key 6, key 7] :=
    toLeBytes_fromLeBytes _ _ _ _ _ _ _ _ (hk 0) (hk 1) (hk 2) (hk 3) (hk 4) (hk 5) (hk 6) (hk 7)
  constructor
  · rw [tableWord_zero, decrypt, hx]
    have h1 : rotate_left (pad [key 0, key 1, key 2, key 3, key 4, key 5, key 6, key 7]) =
        some (toLeBytes (rotl64
          (fromLeBytes [key 0, key 1, key 2, key 3, key 4, key 5, key 6, key 7]) 0)) := by
      simp [pad, rotate_left, rotate, chunks8, rotateGo, tryIntoWord, rotateChunk]
    rw [h1, rotl64_zero, Nat.mod_eq_of_lt hW]
  · rw [tableWord_zero, hback]
    have h2 : encrypt [key 0, key 1, key 2, key 3, key 4, key 5, key 6, key 7] key =
        some (xorKey (toLeBytes (rotl64
          (fromLeBytes [key 0, key 1, key 2, key 3, key 4, key 5, key 6, key 7]) 0)) key) := by
      simp [encrypt, pad, rotate_right, rotate, chunks8, rotateGo, tryIntoWord, rotateChunk]
    rw [h2, rotl64_zero, Nat.mod_eq_of_lt hW, hback]
    simp [xorKey, keyByteAt, List.enum, List.enumFrom, List.replicate]

theorem zero_chunk_scenario_witness :
    (∀ p, (fun q : Nat => q % 256) p < 256) ∧
    (decrypt (List.replicate 8 0) (fun q => q % 256) =
        some (toLeBytes (tableWord (fun q => q % 256) 0)) ∧
      encrypt (toLeBytes (tableWord (fun q => q % 256) 0)) (fun q => q % 256) =
        some (List.replicate 8 0)) :=
  ⟨fun p => Nat.mod_lt p (by norm_num),
    zero_chunk_scenario (fun q => q % 256) (fun p => Nat.mod_lt p (by norm_num))⟩

/-- C8: on the empty input both `decrypt` and `encrypt` succeed and
return the empty byte sequence. -/
theorem empty_input (key : Nat → Nat) :
    decrypt [] key = some [] ∧ encrypt [] key = some [] :=
  ⟨rfl, rfl⟩

/-- C1 fails on the code: for the 16-byte input whose second 64-bit word
is 1 (all other bytes 0) and the all-zero key table, `decrypt ∘ encrypt`
returns the input with its second word turned into 4, not the input:
`rotate_right` performs a left rotation (both branches of `rotate` are
identical), so the second chunk is rotated left by 1 twice instead of
right then left. -/
theorem roundtrip_fails_sixteen_bytes :
    ((encrypt (List.replicate 8 0 ++ 1 :: List.replicate 7 0) (fun _ => 0)).bind
        fun e => decrypt e fun _ => 0) =
      some (List.replicate 8 0 ++ 4 :: List.replicate 7 0) ∧
    (List.replicate 8 0 ++ 4 :: List.replicate 7 0 : List Nat) ≠
      List.replicate 8 0 ++ 1 :: List.replicate 7 0 := by
  constructor
  · decide
  · decide

/-- C4 fails on the code: for the 9-byte input `[0,...,0,1]` and the
all-zero key table, `encrypt` does pad to 16 bytes, but decrypting the
result gives the 9th byte as 4, not the original byte 1 followed by zero
padding, because the second chunk is rotated left in both directions. -/
theorem reencrypt_padding_fails_nine_bytes :
    ((encrypt (List.replicate 8 0 ++ [1]) (fun _ => 0)).map List.length = some 16) ∧
    ((encrypt (List.replicate 8 0 ++ [1]) (fun _ => 0)).bind
        fun e => decrypt e fun _ => 0) =
      some (List.replicate 8 0 ++ 4 :: List.replicate 7 0) ∧
    (List.replicate 8 0 ++ 4 :: List.replicate 7 0 : List Nat) ≠
      (List.replicate 8 0 ++ [1]) ++ List.replicate 7 0 := by
  refine ⟨?_, ?_, ?_⟩
  · decide
  · decide
  · decide

variable {α : Type _}

theorem arrayChunksPad_chunks (N : Nat) (f : α) (hN : 0 < N) (l : List α) :
    (∀ c ∈ arrayChunksPad N f l, c.length = N) ∧
    (arrayChunksPad N f l).flatten = l ++ List.replicate ((N - l.length % N) % N) f := by
  induction l using arrayChunksPad.induct N f with
  | case1 =>
      constructor
      · intro c hc
        simp [arrayChunksPad] at hc
      · simp [arrayChunksPad, Nat.mod_self]
  | case2 a t h0 => exact absurd h0 (by omega)
  | case3 a t h0 ih =>
      obtain ⟨ih1, ih2⟩ := ih
      simp only [arrayChunksPad, dif_neg h0]
      constructor
      · intro c hc
        rcases List.mem_cons.mp hc with rfl | hc
        · simp only [List.length_append, List.length_take, List.length_replicate,
            List.length_cons]
          omega
        · exact ih1 c hc
      · rw [List.flatten_cons, ih2, List.append_assoc]
        rcases le_or_lt (t.length + 1) N with hle | hlt
        · have hdrop : (a :: t).drop N = [] :=
            List.drop_eq_nil_of_le (by simpa using hle)
          have htake : (a :: t).take N = a :: t :=
            List.take_of_length_le (by simpa using hle)
          rw [hdrop, htake]
          simp only [List.length_nil, Nat.zero_mod, Nat.sub_zero, Nat.mod_self,
            List.replicate_zero, List.nil_append, List.append_nil, List.length_cons]
          rcases eq_or_lt_of_le hle with heq | hlt2
          · rw [heq, Nat.mod_self, Nat.sub_zero, Nat.mod_self, Nat.sub_self]
          · rw [Nat.mod_eq_of_lt hlt2, Nat.mod_eq_of_lt (by omega : N - (t.length + 1) < N)]
        · have hm : ∃ m, t.length + 1 = N + m := ⟨t.length + 1 - N, by omega⟩
          obtain ⟨m, hm⟩ := hm
          have htd : ((a :: t).drop N).length = m := by
            simp only [List.length_drop, List.length_cons]
            omega
          have htake0 : N - (a :: t).length = 0 := by
            simp only [List.length_cons]
            omega
          rw [htake0, List.replicate_zero, List.nil_append, htd,
            ← List.append_assoc, List.take_append_drop]
          have hmod : (t.length + 1) % N = m % N := by
            rw [hm, Nat.add_mod_left]
          simp only [List.length_cons]
          rw [hmod]

/-- Sanity check from the adapter's own test suite (`test_1`): input
`[1,2,3,4,5]`, filler 0, width 4 gives `[[1,2,3,4],[5,0,0,0]]`. -/
example : arrayChunksPad 4 (0 : Nat) [1, 2, 3, 4, 5] = [[1, 2, 3, 4], [5, 0, 0, 0]] := by
  simp [arrayChunksPad]

/-- Sanity check from the adapter's own test suite (`test_4`): an input
whose length is an exact multiple of the width gains no padded group. -/
example : arrayChunksPad 4 (0 : Nat) [1, 2, 3, 4, 5, 6, 7, 8] = [[1, 2, 3, 4], [5, 6, 7, 8]] := by
  simp [arrayChunksPad]

/-- C5: for width `N > 0`, every group the chunking adapter emits has
exactly `N` elements; their concatenation is the source followed by the
filler repeated to fill the final short group (no filler at all when the
source length is an exact multiple of `N`), so the groups list the source
elements `N` at a time in order; and an empty source emits nothing. -/
theorem arrayChunksPad_spec (N : Nat) (f : α) (l : List α) (hN : 0 < N) :
    (∀ c ∈ arrayChunksPad N f l, c.length = N) ∧
    (arrayChunksPad N f l).flatten = l ++ List.replicate ((N - l.length % N) % N) f ∧
    arrayChunksPad N f ([] : List α) = [] :=
  ⟨(arrayChunksPad_chunks N f hN l).1, (arrayChunksPad_chunks N f hN l).2,
    by simp [arrayChunksPad]⟩

theorem arrayChunksPad_spec_witness :
    0 < 4 ∧
    ((∀ c ∈ arrayChunksPad 4 (0 : Nat) [1, 2, 3, 4, 5], c.length = 4) ∧
      (arrayChunksPad 4 (0 : Nat) [1, 2, 3, 4, 5]).flatten =
        [1, 2, 3, 4, 5] ++ List.replicate ((4 - [1, 2, 3, 4, 5].length % 4) % 4) 0 ∧
      arrayChunksPad 4 (0 : Nat) ([] : List Nat) = []) :=
  ⟨by norm_num, arrayChunksPad_spec 4 0 [1, 2, 3, 4, 5] (by norm_num)⟩

end Yda

